import Mathlib

/-!
Verification of the Boyer-Moore core of mgrep (src/boyer_moore.c, src/boyer_moore.h)
and its non-overlapping repeated-scan driver (src/mgrep.c).

Bytes are modelled as `Nat`; buffers and patterns as `List Nat`.  `size_t`
arithmetic is modelled as `Nat` arithmetic modulo `W64 = 2^64` at every place
the C code can wrap (the cursor decrement `--i`, the returned `i + 1`, the
initial `i = patlen - 1`, and the driver's offset arithmetic).  The `int`
table entries and loop indices of the C code are provably non-negative along
every path, so they are modelled as plain `Nat`.
-/

namespace Mgrep

/-- Modulus of `size_t` arithmetic (64-bit platform). -/
def W64 : Nat := 2 ^ 64

/-- `#define NOT_FOUND ((size_t)-1)` from src/boyer_moore.h. -/
def NOT_FOUND : Nat := W64 - 1

/-- `#define ALPHABET_LEN 256` from src/boyer_moore.h. -/
def ALPHABET_LEN : Nat := 256

/-- Pointwise array update: models `a[k] = v` on a table viewed as a function. -/
def upd (t : Nat → Nat) (k v : Nat) : Nat → Nat := fun c => if c = k then v else t c

/-- `make_delta1` from src/boyer_moore.c: every entry is initialized to
`patlen`, then for `i = 0 .. patlen-2` the entry for byte `pat[i]` is
overwritten with `patlen - 1 - i`. -/
def make_delta1 (pat : List Nat) (patlen : Nat) : Nat → Nat :=
  (List.range (patlen - 1)).foldl
    (fun d i => upd d (pat.getD i 0) (patlen - 1 - i))
    (fun _ => patlen)

/-- `is_prefix` from src/boyer_moore.c: true iff the suffix of `word` starting
at `word[pos]` is a prefix of `word` (byte-by-byte comparison over
`suffixlen = wordlen - pos` positions). -/
def isPrefixAt (word : List Nat) (wordlen pos : Nat) : Bool :=
  (List.range (wordlen - pos)).all (fun i => word.getD i 0 == word.getD (pos + i) 0)

/-- Loop body of `suffix_length` from src/boyer_moore.c:
`for (i = 0; (word[pos-i] == word[wordlen-1-i]) && (i < pos); i++);  return i;`.
The fuel argument only bounds the iteration count; `suffix_length` supplies
`pos + 1`, which is never exhausted because the loop condition forces
`i < pos` before each increment. -/
def suffix_length_go (word : List Nat) (wordlen pos : Nat) : Nat → Nat → Nat
  | 0, i => i
  | fuel + 1, i =>
    if word.getD (pos - i) 0 = word.getD (wordlen - 1 - i) 0 ∧ i < pos then
      suffix_length_go word wordlen pos fuel (i + 1)
    else i

/-- `suffix_length` from src/boyer_moore.c: length of the longest suffix of
`word` ending on `word[pos]` that is also a suffix of the whole word, capped
at `pos`. -/
def suffix_length (word : List Nat) (wordlen pos : Nat) : Nat :=
  suffix_length_go word wordlen pos (pos + 1) 0

/-- First loop of `make_delta2` from src/boyer_moore.c: `p` runs from
`patlen-1` down to `0`; at each step `last_prefix_index` is updated to `p+1`
when `is_prefix(pat, patlen, p+1)` holds, and `delta2[p]` is set to
`last_prefix_index + (patlen-1 - p)`.  The counter `k` is `p + 1`
(number of remaining iterations). -/
def delta2_loop1 (pat : List Nat) (patlen : Nat) : Nat → Nat → (Nat → Nat) → (Nat → Nat)
  | 0, _, d => d
  | k + 1, lpi, d =>
    let lpi' := if isPrefixAt pat patlen (k + 1) then k + 1 else lpi
    delta2_loop1 pat patlen k lpi' (upd d k (lpi' + (patlen - 1 - k)))

/-- Second loop of `make_delta2` from src/boyer_moore.c: for
`p = 0 .. patlen-2`, with `slen = suffix_length(pat, patlen, p)`, if
`pat[p - slen] != pat[patlen-1 - slen]` then
`delta2[patlen-1 - slen] = patlen-1 - p + slen`. -/
def delta2_loop2 (pat : List Nat) (patlen : Nat) (d : Nat → Nat) : Nat → Nat :=
  (List.range (patlen - 1)).foldl
    (fun d p =>
      let slen := suffix_length pat patlen p
      if pat.getD (p - slen) 0 ≠ pat.getD (patlen - 1 - slen) 0 then
        upd d (patlen - 1 - slen) (patlen - 1 - p + slen)
      else d)
    d

/-- `make_delta2` from src/boyer_moore.c: the first loop (initial
`last_prefix_index = patlen-1`) followed by the second loop.  The table is
`malloc`ed uninitialized in the caller; the first loop writes every entry, so
the initial table is irrelevant and modelled as the zero function. -/
def make_delta2 (pat : List Nat) (patlen : Nat) : Nat → Nat :=
  delta2_loop2 pat patlen (delta2_loop1 pat patlen patlen (patlen - 1) (fun _ => 0))

/-- The C macro `#define max(a, b) ((a < b) ? b : a)` from src/boyer_moore.c. -/
def cMax (a b : Nat) : Nat := if a < b then b else a

/-- Inner comparison loop of `bm_search`:
`while (j >= 0 && (string[i] == pat[j])) { --i; --j; }`.
The second argument is `j + 1` (so `0` encodes the exit value `j = -1`);
`--i` on the `size_t` cursor is `(i + (W64 - 1)) % W64`.
Returns the final `(i, j + 1)`. -/
def bm_inner (B P : List Nat) : Nat → Nat → Nat × Nat
  | i, 0 => (i, 0)
  | i, n + 1 =>
    if B.getD i 0 = P.getD n 0 then bm_inner B P ((i + (W64 - 1)) % W64) n
    else (i, n + 1)

/-- Outer loop of `bm_search` from src/boyer_moore.c.  One fuel unit per
iteration of `while (i < stringlen)`; with the real tables the cursor strictly
increases each iteration, so the fuel `stringlen + 1` supplied by `bm_search`
is never exhausted (the fuel-out value coincides with the loop's own
not-found result). -/
def bm_loop (B P : List Nat) (stringlen patlen : Nat) (d1 d2 : Nat → Nat) :
    Nat → Nat → Nat
  | 0, _ => NOT_FOUND
  | fuel + 1, i =>
    if i < stringlen then
      let r := bm_inner B P i patlen
      if r.2 = 0 then (r.1 + 1) % W64
      else
        bm_loop B P stringlen patlen d1 d2 fuel
          ((r.1 + cMax (d1 (B.getD r.1 0)) (d2 (r.2 - 1))) % W64)
    else NOT_FOUND

/-- `bm_search` from src/boyer_moore.c: `size_t i = patlen - 1` (mod `2^64`),
then the scan loop. -/
def bm_search (B P : List Nat) (stringlen patlen : Nat) (d1 d2 : Nat → Nat) : Nat :=
  bm_loop B P stringlen patlen d1 d2 (stringlen + 1) ((patlen + (W64 - 1)) % W64)

/-- `bm_search` as invoked by src/mgrep.c: true lengths, tables built by
`make_delta1` and `make_delta2` from the pattern. -/
def bmSearch (B P : List Nat) : Nat :=
  bm_search B P B.length P.length (make_delta1 P P.length) (make_delta2 P P.length)

/-- Reads performed by the inner comparison loop, as (buffer index,
pattern index) pairs, in evaluation order.  The `j >= 0` guard short-circuits
before `string[i]` is read, so at `j = -1` (second argument `0`) nothing is
read. -/
def bm_inner_reads (B P : List Nat) : Nat → Nat → List (Nat × Nat)
  | _, 0 => []
  | i, n + 1 =>
    (i, n) ::
      (if B.getD i 0 = P.getD n 0 then bm_inner_reads B P ((i + (W64 - 1)) % W64) n
       else [])

/-- Reads performed by the whole scan loop.  The `delta1[string[i]]` read on a
mismatch re-reads the byte at the mismatch position, which is already the last
pair recorded by the inner loop. -/
def bm_loop_reads (B P : List Nat) (stringlen patlen : Nat) (d1 d2 : Nat → Nat) :
    Nat → Nat → List (Nat × Nat)
  | 0, _ => []
  | fuel + 1, i =>
    if i < stringlen then
      let r := bm_inner B P i patlen
      bm_inner_reads B P i patlen ++
        (if r.2 = 0 then []
         else
           bm_loop_reads B P stringlen patlen d1 d2 fuel
             ((r.1 + cMax (d1 (B.getD r.1 0)) (d2 (r.2 - 1))) % W64))
    else []

/-- All reads of `bmSearch B P`. -/
def bmReads (B P : List Nat) : List (Nat × Nat) :=
  bm_loop_reads B P B.length P.length (make_delta1 P P.length) (make_delta2 P P.length)
    (B.length + 1) ((P.length + (W64 - 1)) % W64)

/-- `P` occurs in `B` at offset `o`. -/
def matchAt (B P : List Nat) (o : Nat) : Prop :=
  o + P.length ≤ B.length ∧ ∀ k, k < P.length → B.getD (o + k) 0 = P.getD k 0

instance matchAt.dec (B P : List Nat) (o : Nat) : Decidable (matchAt B P o) := by
  unfold matchAt; infer_instance

/-- A shift `t` of the pattern against itself that is consistent with a
mismatch at pattern position `j` after the suffix `P[j+1 .. m-1]` matched:
every overlapped suffix byte agrees, and if the shift still covers position
`j` the overlapped byte differs from `P[j]`. -/
def goodShift (P : List Nat) (m j t : Nat) : Prop :=
  (∀ k, j < k → k < m → t ≤ k → P.getD (k - t) 0 = P.getD k 0) ∧
  (t ≤ j → P.getD (j - t) 0 ≠ P.getD j 0)

/-- Modelled from the spec (§4.3, §8): one step of the naive exhaustive
left-to-right search — the least offset `o ≥ c` at which the pattern matches,
if any.  The fuel `B.length + 1 - c` supplied by `naiveFirstFrom` is never
exhausted because a candidate beyond `B.length - P.length` fails the length
guard. -/
def naiveFirstGo (B P : List Nat) : Nat → Nat → Option Nat
  | 0, _ => none
  | fuel + 1, c =>
    if B.length < c + P.length then none
    else if matchAt B P c then some c
    else naiveFirstGo B P fuel (c + 1)

/-- Modelled from the spec: leftmost match of `P` in `B` at or after `c`. -/
def naiveFirstFrom (B P : List Nat) (c : Nat) : Option Nat :=
  naiveFirstGo B P (B.length + 1 - c) c

/-- Modelled from the spec (§4.3): the naive greedy left-to-right
non-overlapping scan — take the leftmost match at or after the cursor, report
it, and resume just past its end.  With a non-empty pattern the cursor
strictly increases, so the fuel `B.length + 1` supplied by `naiveScan` is
never exhausted. -/
def naiveScanGo (B P : List Nat) : Nat → Nat → List Nat
  | 0, _ => []
  | fuel + 1, c =>
    match naiveFirstFrom B P c with
    | none => []
    | some o => o :: naiveScanGo B P fuel (o + P.length)

/-- Modelled from the spec: all matches of the naive greedy non-overlapping
scan. -/
def naiveScan (B P : List Nat) : List Nat := naiveScanGo B P (B.length + 1) 0

/-- The repeated-scan driver of src/mgrep.c (main, the
`while ((next = bm_search(file + last, file_size - last, ...)) != NOT_FOUND)`
loop): scan the remaining suffix, report `last + next`, advance `last` by
`next + pattern_size`.  All offset arithmetic is `size_t`, hence mod `W64`;
`file + last` is pointer arithmetic, modelled by `List.drop`.  One fuel unit
per reported match; `last` strictly increases with a non-empty pattern, so
the fuel `file.length + 1` supplied by `driver` is never exhausted. -/
def driverGo (file pattern : List Nat) (d1 d2 : Nat → Nat) : Nat → Nat → List Nat
  | 0, _ => []
  | fuel + 1, last =>
    let next :=
      bm_search (file.drop last) pattern ((file.length + (W64 - last)) % W64)
        pattern.length d1 d2
    if next = NOT_FOUND then []
    else
      ((last + next) % W64) ::
        driverGo file pattern d1 d2 fuel ((last + next + pattern.length) % W64)

/-- The driver as run by src/mgrep.c: tables built once from the pattern,
scan from offset 0. -/
def driver (file pattern : List Nat) : List Nat :=
  driverGo file pattern (make_delta1 pattern pattern.length)
    (make_delta2 pattern pattern.length) (file.length + 1) 0

/-! ### Generic helpers -/

theorem foldl_inv {α : Type} (f : α → Nat → α) (Q : α → Prop) :
    ∀ (l : List Nat) (d : α), Q d → (∀ d p, p ∈ l → Q d → Q (f d p)) → Q (l.foldl f d) := by
  intro l
  induction l with
  | nil => intro d h _; exact h
  | cons p l ih =>
    intro d h hstep
    exact ih _ (hstep d p (by simp) h) (fun d q hq => hstep d q (by simp [hq]))

theorem range_split (n p : Nat) (h : p < n) :
    List.range n = (List.range p ++ [p]) ++ (List.range (n - (p + 1))).map (· + (p + 1)) := by
  have h1 : p + 1 + (n - (p + 1)) = n := by omega
  have h2 := List.range_add (p + 1) (n - (p + 1))
  rw [h1] at h2
  rw [h2, List.range_succ]
  congr 1
  apply List.map_congr_left
  intro x _
  omega

theorem upd_self (t : Nat → Nat) (k v : Nat) : upd t k v k = v := by simp [upd]

theorem upd_other (t : Nat → Nat) (k v c : Nat) (h : c ≠ k) : upd t k v c = t c := by
  simp [upd, h]

theorem W64_pos : 0 < W64 := by unfold W64; positivity

theorem cMax_le {a b c : Nat} (h1 : a ≤ c) (h2 : b ≤ c) : cMax a b ≤ c := by
  unfold cMax; split <;> omega

theorem le_cMax_right (a b : Nat) : b ≤ cMax a b := by unfold cMax; split <;> omega

theorem dec_mod {i : Nat} (h1 : 1 ≤ i) (h2 : i < W64) : (i + (W64 - 1)) % W64 = i - 1 := by
  have hw : 0 < W64 := W64_pos
  have he : i + (W64 - 1) = (i - 1) + W64 := by omega
  rw [he, Nat.add_mod_right]
  exact Nat.mod_eq_of_lt (by omega)

theorem mod_small {a : Nat} (h : a < W64) : a % W64 = a := Nat.mod_eq_of_lt h

/-! ### Bad-character table lemmas -/

theorem make_delta1_range (pat : List Nat) (patlen : Nat) (hm : 1 ≤ patlen) (c : Nat) :
    1 ≤ make_delta1 pat patlen c ∧ make_delta1 pat patlen c ≤ patlen := by
  unfold make_delta1
  refine @foldl_inv (Nat → Nat) _ (fun d => 1 ≤ d c ∧ d c ≤ patlen) _ _ ⟨hm, le_refl _⟩ ?_
  intro d p hp hq
  have hp' := List.mem_range.mp hp
  by_cases hc : c = pat.getD p 0
  · rw [hc, upd_self]; omega
  · rw [upd_other _ _ _ _ hc]; exact hq

theorem make_delta1_not_occ (pat : List Nat) (patlen : Nat) (v : Nat)
    (h : ∀ i, i < patlen - 1 → pat.getD i 0 ≠ v) :
    make_delta1 pat patlen v = patlen := by
  unfold make_delta1
  refine @foldl_inv (Nat → Nat) _ (fun d => d v = patlen) _ _ rfl ?_
  intro d p hp hq
  have hp' := List.mem_range.mp hp
  rw [upd_other _ _ _ _ (fun he => h p hp' he.symm), hq]

theorem make_delta1_rightmost (pat : List Nat) (patlen : Nat) (v i : Nat)
    (hi : i < patlen - 1) (hv : pat.getD i 0 = v)
    (hr : ∀ i', i < i' → i' < patlen - 1 → pat.getD i' 0 ≠ v) :
    make_delta1 pat patlen v = patlen - 1 - i := by
  unfold make_delta1
  rw [range_split (patlen - 1) i hi, List.foldl_append, List.foldl_append]
  refine @foldl_inv (Nat → Nat) _ (fun d => d v = patlen - 1 - i) _ _ ?_ ?_
  · simp only [List.foldl_cons, List.foldl_nil, hv, upd_self]
  · intro d p hp hq
    simp only [List.mem_map, List.mem_range] at hp
    obtain ⟨x, hx, rfl⟩ := hp
    rw [upd_other _ _ _ _ (fun he => hr (x + (i + 1)) (by omega) (by omega) he.symm), hq]

theorem make_delta1_le_occ (pat : List Nat) (patlen i : Nat) (hi : i < patlen - 1) :
    make_delta1 pat patlen (pat.getD i 0) ≤ patlen - 1 - i := by
  unfold make_delta1
  rw [range_split (patlen - 1) i hi, List.foldl_append, List.foldl_append]
  refine @foldl_inv (Nat → Nat) _ (fun d => d (pat.getD i 0) ≤ patlen - 1 - i) _ _ ?_ ?_
  · simp only [List.foldl_cons, List.foldl_nil, upd_self, le_refl]
  · intro d p hp hq
    simp only [List.mem_map, List.mem_range] at hp
    obtain ⟨x, hx, rfl⟩ := hp
    by_cases hc : pat.getD i 0 = pat.getD (x + (i + 1)) 0
    · rw [hc, upd_self]; omega
    · rw [upd_other _ _ _ _ hc]; exact hq

/-! ### is_prefix and suffix_length characterizations -/

theorem isPrefixAt_iff (word : List Nat) (wordlen pos : Nat) :
    isPrefixAt word wordlen pos = true ↔
      ∀ i, i < wordlen - pos → word.getD i 0 = word.getD (pos + i) 0 := by
  unfold isPrefixAt
  simp [List.all_eq_true, List.mem_range]

theorem isPrefixAt_self (word : List Nat) (wordlen : Nat) :
    isPrefixAt word wordlen wordlen = true := by
  rw [isPrefixAt_iff]
  intro i hi
  omega

theorem isPrefixAt_shift (word : List Nat) (m q : Nat) (hq : q ≤ m) :
    isPrefixAt word m q = true ↔
      ∀ k, q ≤ k → k < m → word.getD (k - q) 0 = word.getD k 0 := by
  rw [isPrefixAt_iff]
  constructor
  · intro h k h1 h2
    have h3 := h (k - q) (by omega)
    have he : q + (k - q) = k := by omega
    rw [he] at h3
    exact h3
  · intro h i hi
    have h3 := h (q + i) (by omega) (by omega)
    have he : q + i - q = i := by omega
    rw [he] at h3
    exact h3

theorem suffix_length_go_spec (word : List Nat) (wordlen pos : Nat) :
    ∀ fuel i, i ≤ pos → pos + 1 ≤ fuel + i →
      i ≤ suffix_length_go word wordlen pos fuel i ∧
      suffix_length_go word wordlen pos fuel i ≤ pos ∧
      (∀ k, i ≤ k → k < suffix_length_go word wordlen pos fuel i →
        word.getD (pos - k) 0 = word.getD (wordlen - 1 - k) 0) ∧
      (suffix_length_go word wordlen pos fuel i = pos ∨
        word.getD (pos - suffix_length_go word wordlen pos fuel i) 0 ≠
          word.getD (wordlen - 1 - suffix_length_go word wordlen pos fuel i) 0) := by
  intro fuel
  induction fuel with
  | zero => intro i h1 h2; omega
  | succ fuel ih =>
    intro i h1 h2
    unfold suffix_length_go
    split
    case isTrue h =>
      obtain ⟨he, hlt⟩ := h
      obtain ⟨g1, g2, g3, g4⟩ := ih (i + 1) (by omega) (by omega)
      refine ⟨by omega, g2, ?_, g4⟩
      intro k hk1 hk2
      rcases Nat.eq_or_lt_of_le hk1 with rfl | h'
      · exact he
      · exact g3 k (by omega) hk2
    case isFalse h =>
      refine ⟨le_refl _, h1, ?_, ?_⟩
      · intro k hk1 hk2; omega
      · by_cases he : word.getD (pos - i) 0 = word.getD (wordlen - 1 - i) 0
        · left
          have hge : ¬ i < pos := fun hlt => h ⟨he, hlt⟩
          omega
        · right; exact he

theorem suffix_length_spec (word : List Nat) (wordlen pos : Nat) :
    suffix_length word wordlen pos ≤ pos ∧
    (∀ k, k < suffix_length word wordlen pos →
      word.getD (pos - k) 0 = word.getD (wordlen - 1 - k) 0) ∧
    (suffix_length word wordlen pos = pos ∨
      word.getD (pos - suffix_length word wordlen pos) 0 ≠
        word.getD (wordlen - 1 - suffix_length word wordlen pos) 0) := by
  obtain ⟨g1, g2, g3, g4⟩ := suffix_length_go_spec word wordlen pos (pos + 1) 0
    (by omega) (by omega)
  exact ⟨g2, fun k hk => g3 k (by omega) hk, g4⟩

theorem suffix_length_unique (word : List Nat) (wordlen pos s : Nat)
    (h1 : s ≤ pos)
    (h2 : ∀ k, k < s → word.getD (pos - k) 0 = word.getD (wordlen - 1 - k) 0)
    (h3 : s = pos ∨ word.getD (pos - s) 0 ≠ word.getD (wordlen - 1 - s) 0) :
    suffix_length word wordlen pos = s := by
  obtain ⟨g1, g2, g3⟩ := suffix_length_spec word wordlen pos
  rcases Nat.lt_trichotomy (suffix_length word wordlen pos) s with h | h | h
  · rcases g3 with he | hne
    · omega
    · exact absurd (h2 _ h) hne
  · exact h
  · rcases h3 with he | hne
    · omega
    · exact absurd (g2 s h) hne

/-! ### Good-suffix table: first loop -/

theorem delta2_loop1_frozen (pat : List Nat) (m : Nat) :
    ∀ k lpi d j, k ≤ j → delta2_loop1 pat m k lpi d j = d j := by
  intro k
  induction k with
  | zero => intro lpi d j h; rfl
  | succ k ih =>
    intro lpi d j h
    unfold delta2_loop1
    rw [ih _ _ j (by omega), upd_other _ _ _ _ (by omega)]

theorem delta2_loop1_val (pat : List Nat) (m : Nat) :
    ∀ k lpi d j, j < k →
      ∃ v, delta2_loop1 pat m k lpi d j = v + (m - 1 - j) ∧
        ((v = lpi ∧ ∀ q, j < q → q ≤ k → isPrefixAt pat m q ≠ true) ∨
          (j < v ∧ v ≤ k ∧ isPrefixAt pat m v = true)) ∧
        (∀ q, j < q → q ≤ k → isPrefixAt pat m q = true → v ≤ q) := by
  intro k
  induction k with
  | zero => intro lpi d j h; omega
  | succ k ih =>
    intro lpi d j h
    by_cases hj : j = k
    · subst hj
      by_cases hp : isPrefixAt pat m (j + 1) = true
      · refine ⟨j + 1, ?_, Or.inr ⟨by omega, le_refl _, hp⟩, fun q h1 h2 _ => by omega⟩
        simp only [delta2_loop1, hp, if_true]
        rw [delta2_loop1_frozen pat m j _ _ j (le_refl _), upd_self]
      · refine ⟨lpi, ?_, Or.inl ⟨rfl, ?_⟩, ?_⟩
        · simp only [delta2_loop1, hp, Bool.false_eq_true, if_false]
          rw [delta2_loop1_frozen pat m j _ _ j (le_refl _), upd_self]
        · intro q h1 h2
          have hq : q = j + 1 := by omega
          subst hq
          exact hp
        · intro q h1 h2 hq
          have hq' : q = j + 1 := by omega
          subst hq'
          exact absurd hq hp
    · have hjk : j < k := by omega
      by_cases hp : isPrefixAt pat m (k + 1) = true
      · obtain ⟨v, hv, hd, hmin⟩ := ih (k + 1) (upd d k ((k + 1) + (m - 1 - k))) j hjk
        refine ⟨v, ?_, ?_, ?_⟩
        · simp only [delta2_loop1, hp, if_true]
          exact hv
        · rcases hd with ⟨rfl, hnone⟩ | hgood
          · exact Or.inr ⟨by omega, by omega, hp⟩
          · exact Or.inr ⟨hgood.1, by omega, hgood.2.2⟩
        · intro q h1 h2 hq
          rcases Nat.lt_or_ge k q with hq' | hq'
          · have hq2 : q = k + 1 := by omega
            subst hq2
            rcases hd with ⟨rfl, _⟩ | hgood
            · exact le_refl _
            · omega
          · exact hmin q h1 hq' hq
      · obtain ⟨v, hv, hd, hmin⟩ := ih lpi (upd d k (lpi + (m - 1 - k))) j hjk
        refine ⟨v, ?_, ?_, ?_⟩
        · simp only [delta2_loop1, hp, Bool.false_eq_true, if_false]
          exact hv
        · rcases hd with ⟨hveq, hnone⟩ | hgood
          · refine Or.inl ⟨hveq, ?_⟩
            intro q h1 h2
            rcases Nat.lt_or_ge k q with hq' | hq'
            · have hq2 : q = k + 1 := by omega
              subst hq2
              exact hp
            · exact hnone q h1 hq'
          · exact Or.inr ⟨hgood.1, by omega, hgood.2.2⟩
        · intro q h1 h2 hq
          rcases Nat.lt_or_ge k q with hq' | hq'
          · have hq2 : q = k + 1 := by omega
            subst hq2
            exact absurd hq hp
          · exact hmin q h1 hq' hq

theorem delta2_after_loop1 (pat : List Nat) (m : Nat) (j : Nat) (hj : j < m) :
    ∃ v, delta2_loop1 pat m m (m - 1) (fun _ => 0) j = v + (m - 1 - j) ∧
      j < v ∧ v ≤ m ∧ isPrefixAt pat m v = true ∧
      (∀ q, j < q → q ≤ m → isPrefixAt pat m q = true → v ≤ q) := by
  obtain ⟨v, hv, hd, hmin⟩ := delta2_loop1_val pat m m (m - 1) (fun _ => 0) j hj
  rcases hd with ⟨rfl, hnone⟩ | ⟨h1, h2, h3⟩
  · exact absurd (isPrefixAt_self pat m) (hnone m hj (le_refl _))
  · exact ⟨v, hv, h1, h2, h3, hmin⟩

/-! ### Good-suffix table: second loop and final bounds -/

theorem make_delta2_bounds (pat : List Nat) (m : Nat) (hm : 1 ≤ m) (j : Nat) (hj : j < m) :
    m - j ≤ make_delta2 pat m j ∧ make_delta2 pat m j ≤ 2 * m - 1 := by
  unfold make_delta2 delta2_loop2
  refine @foldl_inv (Nat → Nat) _ (fun d => m - j ≤ d j ∧ d j ≤ 2 * m - 1) _ _ ?_ ?_
  · obtain ⟨v, hv, h1, h2, _, _⟩ := delta2_after_loop1 pat m j hj
    rw [hv]
    omega
  · intro d p hp hq
    have hp' := List.mem_range.mp hp
    split
    case isTrue hcond =>
      have hs := (suffix_length_spec pat m p).1
      by_cases hI : j = m - 1 - suffix_length pat m p
      · rw [hI, upd_self]
        omega
      · rw [upd_other _ _ _ _ hI]
        exact hq
    case isFalse => exact hq

theorem make_delta2_goodShift_le (pat : List Nat) (m : Nat) (hm : 1 ≤ m) (j t : Nat)
    (hj : j < m) (ht : 1 ≤ t) (hg : goodShift pat m j t) :
    make_delta2 pat m j ≤ (m - 1 - j) + t := by
  rcases Nat.lt_or_ge j t with hcase | hcase
  · -- t ≥ j + 1: the first-loop value is already small enough, and every
    -- second-loop write to index j is at most m - 1 < (m-1-j) + t.
    unfold make_delta2 delta2_loop2
    refine @foldl_inv (Nat → Nat) _ (fun d => d j ≤ (m - 1 - j) + t) _ _ ?_ ?_
    · obtain ⟨v, hv, h1, h2, h3, hmin⟩ := delta2_after_loop1 pat m j hj
      rw [hv]
      rcases le_or_lt t m with htm | htm
      · have hpre : isPrefixAt pat m t = true := by
          rw [isPrefixAt_shift pat m t htm]
          intro k h1k h2k
          exact hg.1 k (by omega) h2k h1k
        have := hmin t (by omega) htm hpre
        omega
      · omega
    · intro d p hp hq
      have hp' := List.mem_range.mp hp
      split
      case isTrue hcond =>
        have hs := (suffix_length_spec pat m p).1
        by_cases hI : j = m - 1 - suffix_length pat m p
        · rw [hI, upd_self]
          omega
        · rw [upd_other _ _ _ _ hI]
          exact hq
      case isFalse => exact hq
  · -- t ≤ j: the second loop writes exactly (m-1-j) + t at index j when it
    -- reaches p₀ = m-1-t, and later iterations only write smaller values there.
    unfold make_delta2 delta2_loop2
    have hp0 : m - 1 - t < m - 1 := by omega
    rw [range_split (m - 1) (m - 1 - t) hp0, List.foldl_append, List.foldl_append]
    have hslen : suffix_length pat m (m - 1 - t) = m - 1 - j := by
      apply suffix_length_unique
      · omega
      · intro k hk
        have h1 : m - 1 - t - k = (m - 1 - k) - t := by omega
        rw [h1]
        exact hg.1 (m - 1 - k) (by omega) (by omega) (by omega)
      · right
        have h1 : m - 1 - t - (m - 1 - j) = j - t := by omega
        have h2 : m - 1 - (m - 1 - j) = j := by omega
        rw [h1, h2]
        exact hg.2 hcase
    refine @foldl_inv (Nat → Nat) _ (fun d => d j ≤ (m - 1 - j) + t) _ _ ?_ ?_
    · simp only [List.foldl_cons, List.foldl_nil]
      rw [hslen]
      have h1 : m - 1 - t - (m - 1 - j) = j - t := by omega
      have h2 : m - 1 - (m - 1 - j) = j := by omega
      rw [h1, h2, if_pos (hg.2 hcase), upd_self]
      omega
    · intro d p hp hq
      simp only [List.mem_map, List.mem_range] at hp
      obtain ⟨x, hx, rfl⟩ := hp
      split
      case isTrue hcond =>
        have hs := (suffix_length_spec pat m (x + (m - 1 - t + 1))).1
        by_cases hI : j = m - 1 - suffix_length pat m (x + (m - 1 - t + 1))
        · rw [hI, upd_self]
          omega
        · rw [upd_other _ _ _ _ hI]
          exact hq
      case isFalse => exact hq

/-! ### Scan loop: inner comparison loop -/

theorem bm_loop_succ (B P : List Nat) (sl pl : Nat) (d1 d2 : Nat → Nat) (fuel i : Nat) :
    bm_loop B P sl pl d1 d2 (fuel + 1) i =
      if i < sl then
        if (bm_inner B P i pl).2 = 0 then ((bm_inner B P i pl).1 + 1) % W64
        else
          bm_loop B P sl pl d1 d2 fuel
            (((bm_inner B P i pl).1 +
                cMax (d1 (B.getD (bm_inner B P i pl).1 0))
                  (d2 ((bm_inner B P i pl).2 - 1))) % W64)
      else NOT_FOUND := rfl

theorem bm_loop_reads_succ (B P : List Nat) (sl pl : Nat) (d1 d2 : Nat → Nat) (fuel i : Nat) :
    bm_loop_reads B P sl pl d1 d2 (fuel + 1) i =
      if i < sl then
        bm_inner_reads B P i pl ++
          (if (bm_inner B P i pl).2 = 0 then []
           else
             bm_loop_reads B P sl pl d1 d2 fuel
               (((bm_inner B P i pl).1 +
                   cMax (d1 (B.getD (bm_inner B P i pl).1 0))
                     (d2 ((bm_inner B P i pl).2 - 1))) % W64))
      else [] := rfl

theorem bm_inner_spec (B P : List Nat) :
    ∀ n i, n ≤ i + 1 → i < W64 →
      ((bm_inner B P i n).2 = 0 ∧ (bm_inner B P i n).1 = (i + (W64 - n)) % W64 ∧
        ∀ k, k < n → B.getD (i + 1 - n + k) 0 = P.getD k 0) ∨
      (∃ jj, jj < n ∧ bm_inner B P i n = (i - (n - 1 - jj), jj + 1) ∧
        B.getD (i - (n - 1 - jj)) 0 ≠ P.getD jj 0 ∧
        ∀ k, jj < k → k < n → B.getD (i - (n - 1 - k)) 0 = P.getD k 0) := by
  intro n
  induction n with
  | zero =>
    intro i h1 h2
    left
    refine ⟨rfl, ?_, fun k hk => absurd hk (by omega)⟩
    show i = (i + (W64 - 0)) % W64
    rw [Nat.sub_zero, Nat.add_mod_right, mod_small h2]
  | succ n ih =>
    intro i h1 h2
    by_cases hc : B.getD i 0 = P.getD n 0
    · rcases Nat.eq_zero_or_pos i with rfl | hipos
      · have hn : n = 0 := by omega
        subst hn
        left
        refine ⟨?_, ?_, ?_⟩
        · simp only [bm_inner, if_pos hc]
        · simp only [bm_inner, if_pos hc]
        · intro k hk
          have hk0 : k = 0 := by omega
          subst hk0
          exact hc
      · have hdec : (i + (W64 - 1)) % W64 = i - 1 := dec_mod hipos h2
        have ih' := ih (i - 1) (by omega) (by omega)
        rcases ih' with ⟨ha, hb, hk⟩ | ⟨jj, hjj, heq, hne, hmatch⟩
        · left
          refine ⟨?_, ?_, ?_⟩
          · simp only [bm_inner, if_pos hc, hdec]
            exact ha
          · simp only [bm_inner, if_pos hc, hdec]
            rw [hb]
            have he : i - 1 + (W64 - n) = i + (W64 - (n + 1)) := by omega
            rw [he]
          · intro k hk'
            rcases Nat.lt_or_ge k n with hkn | hkn
            · have hkk := hk k hkn
              have he : i - 1 + 1 - n + k = i + 1 - (n + 1) + k := by omega
              rwa [he] at hkk
            · have hkeq : k = n := by omega
              subst hkeq
              have he : i + 1 - (k + 1) + k = i := by omega
              rw [he]
              exact hc
        · right
          refine ⟨jj, by omega, ?_, ?_, ?_⟩
          · simp only [bm_inner, if_pos hc, hdec]
            rw [heq]
            have he : i - 1 - (n - 1 - jj) = i - (n + 1 - 1 - jj) := by omega
            rw [he]
          · have he : i - 1 - (n - 1 - jj) = i - (n + 1 - 1 - jj) := by omega
            rwa [he] at hne
          · intro k hk1 hk2
            rcases Nat.lt_or_ge k n with hkn | hkn
            · have hkk := hmatch k hk1 hkn
              have he : i - 1 - (n - 1 - k) = i - (n + 1 - 1 - k) := by omega
              rwa [he] at hkk
            · have hkeq : k = n := by omega
              subst hkeq
              have he : i - (k + 1 - 1 - k) = i := by omega
              rw [he]
              exact hc
    · right
      refine ⟨n, by omega, ?_, ?_, ?_⟩
      · simp only [bm_inner, if_neg hc]
        have he : i - (n + 1 - 1 - n) = i := by omega
        rw [he]
      · have he : i - (n + 1 - 1 - n) = i := by omega
        rw [he]
        exact hc
      · intro k hk1 hk2
        exact absurd hk2 (by omega)

theorem match_return_val {i m : Nat} (h1 : 1 ≤ m) (h2 : m - 1 ≤ i) (h3 : i < W64)
    (h4 : m ≤ W64) : ((i + (W64 - m)) % W64 + 1) % W64 = i + 1 - m := by
  have hw := W64_pos
  rcases Nat.lt_or_ge i m with hc | hc
  · have hie : i = m - 1 := by omega
    subst hie
    have ha : m - 1 + (W64 - m) = W64 - 1 := by omega
    rw [ha, Nat.mod_eq_of_lt (show W64 - 1 < W64 by omega)]
    have hb : W64 - 1 + 1 = W64 := by omega
    rw [hb, Nat.mod_self]
    omega
  · have ha : i + (W64 - m) = (i - m) + W64 := by omega
    rw [ha, Nat.add_mod_right, Nat.mod_eq_of_lt (show i - m < W64 by omega),
      Nat.mod_eq_of_lt (show i - m + 1 < W64 by omega)]
    omega

/-! ### Scan loop: master invariant lemma

The outer-loop induction.  The invariant is that no occurrence of the
pattern ends strictly before the current alignment end `i`; on a mismatch
the combined bad-character/good-suffix shift provably never moves the
alignment past the end of any occurrence. -/

theorem bm_loop_master (B P : List Nat) (m : Nat) (d1 d2 : Nat → Nat)
    (hm : 1 ≤ m) (hmP : P.length = m)
    (hW : B.length + 2 * m ≤ W64)
    (hd1a : ∀ c, 1 ≤ d1 c ∧ d1 c ≤ m)
    (hd1b : ∀ idx, idx < m - 1 → d1 (P.getD idx 0) ≤ m - 1 - idx)
    (hd2a : ∀ j, j < m → m - j ≤ d2 j)
    (hd2b : ∀ j, j < m → d2 j ≤ 2 * m - 1)
    (hd2c : ∀ j t, j < m → 1 ≤ t → goodShift P m j t → d2 j ≤ (m - 1 - j) + t) :
    ∀ fuel i, m - 1 ≤ i → B.length ≤ fuel + i →
      (∀ o, matchAt B P o → i ≤ o + m - 1) →
      (bm_loop B P B.length m d1 d2 fuel i = NOT_FOUND → ∀ o, ¬ matchAt B P o) ∧
      (bm_loop B P B.length m d1 d2 fuel i ≠ NOT_FOUND →
        matchAt B P (bm_loop B P B.length m d1 d2 fuel i) ∧
        bm_loop B P B.length m d1 d2 fuel i + m ≤ B.length ∧
        ∀ o, matchAt B P o → bm_loop B P B.length m d1 d2 fuel i ≤ o) := by
  have hw := W64_pos
  intro fuel
  induction fuel with
  | zero =>
    intro i hi hfuel hinv
    constructor
    · intro _ o ho
      have h1 := hinv o ho
      have h2 := ho.1
      rw [hmP] at h2
      omega
    · intro hne
      exact absurd rfl hne
  | succ fuel ih =>
    intro i hi hfuel hinv
    by_cases hguard : i < B.length
    case neg =>
      have hval : bm_loop B P B.length m d1 d2 (fuel + 1) i = NOT_FOUND := by
        rw [bm_loop_succ, if_neg hguard]
      rw [hval]
      constructor
      · intro _ o ho
        have h1 := hinv o ho
        have h2 := ho.1
        rw [hmP] at h2
        omega
      · intro hne
        exact absurd rfl hne
    case pos =>
      have hiW : i < W64 := by omega
      have hspec := bm_inner_spec B P m i (by omega) hiW
      rcases hspec with ⟨h0, h1', hk⟩ | ⟨jj, hjj, heq, hne', hmatch⟩
      · -- full match: the loop returns offset i + 1 - m
        have ho : matchAt B P (i + 1 - m) := by
          constructor
          · rw [hmP]; omega
          · intro k hk'
            rw [hmP] at hk'
            exact hk k hk'
        have hval : bm_loop B P B.length m d1 d2 (fuel + 1) i = i + 1 - m := by
          rw [bm_loop_succ, if_pos hguard, if_pos h0, h1']
          exact match_return_val hm hi hiW (by omega)
        rw [hval]
        constructor
        · intro habs
          have : NOT_FOUND = W64 - 1 := rfl
          omega
        · intro _
          refine ⟨ho, by omega, ?_⟩
          intro o hoc
          have := hinv o hoc
          omega
      · -- mismatch at pattern position jj
        have hi'le : i - (m - 1 - jj) ≤ i := by omega
        have hs_lo : m - jj ≤ cMax (d1 (B.getD (i - (m - 1 - jj)) 0)) (d2 jj) := by
          have h1 := hd2a jj hjj
          have h2 := le_cMax_right (d1 (B.getD (i - (m - 1 - jj)) 0)) (d2 jj)
          omega
        have hs_hi : cMax (d1 (B.getD (i - (m - 1 - jj)) 0)) (d2 jj) ≤ 2 * m - 1 := by
          refine cMax_le ?_ ?_
          · have := (hd1a (B.getD (i - (m - 1 - jj)) 0)).2
            omega
          · exact hd2b jj hjj
        have hnowrap :
            (i - (m - 1 - jj) + cMax (d1 (B.getD (i - (m - 1 - jj)) 0)) (d2 jj)) % W64 =
              i - (m - 1 - jj) + cMax (d1 (B.getD (i - (m - 1 - jj)) 0)) (d2 jj) := by
          apply mod_small
          omega
        have hval : bm_loop B P B.length m d1 d2 (fuel + 1) i =
            bm_loop B P B.length m d1 d2 fuel
              (i - (m - 1 - jj) + cMax (d1 (B.getD (i - (m - 1 - jj)) 0)) (d2 jj)) := by
          rw [bm_loop_succ, if_pos hguard, heq]
          simp only
          rw [if_neg (by omega)]
          have he1 : jj + 1 - 1 = jj := by omega
          rw [he1, hnowrap]
        -- the new alignment never skips past an occurrence
        have hinv' : ∀ o, matchAt B P o →
            i - (m - 1 - jj) + cMax (d1 (B.getD (i - (m - 1 - jj)) 0)) (d2 jj) ≤
              o + m - 1 := by
          intro o hoc
          have hoi := hinv o hoc
          have hobound := hoc.1
          rw [hmP] at hobound
          -- the current window is not a full occurrence ending at i
          have hnei : o + m - 1 ≠ i := by
            intro habs
            apply hne'
            have hb := hoc.2 jj (by omega)
            have hidx : o + jj = i - (m - 1 - jj) := by omega
            rwa [hidx] at hb
          have htpos : i + 1 ≤ o + m - 1 := by omega
          -- bad-character component
          have hbc : d1 (B.getD (i - (m - 1 - jj)) 0) ≤ o + m - 1 - (i - (m - 1 - jj)) := by
            rcases Nat.lt_or_ge (i + jj) (o + m - 1) with hcase | hcase
            · have := (hd1a (B.getD (i - (m - 1 - jj)) 0)).2
              omega
            · have hidx : B.getD (i - (m - 1 - jj)) 0 = P.getD (i - (m - 1 - jj) - o) 0 := by
                have hb := hoc.2 (i - (m - 1 - jj) - o) (by omega)
                have he : o + (i - (m - 1 - jj) - o) = i - (m - 1 - jj) := by omega
                rwa [he] at hb
              rw [hidx]
              have := hd1b (i - (m - 1 - jj) - o) (by omega)
              omega
          -- good-suffix component
          have hgs : d2 jj ≤ o + m - 1 - (i - (m - 1 - jj)) := by
            have hgood : goodShift P m jj (o + m - 1 - i) := by
              constructor
              · intro k hk1 hk2 hk3
                have hb1 := hmatch k hk1 hk2
                have hb2 := hoc.2 (k - (o + m - 1 - i)) (by omega)
                have he : o + (k - (o + m - 1 - i)) = i - (m - 1 - k) := by omega
                rw [he] at hb2
                rw [← hb2, hb1]
              · intro hta
                have hb2 := hoc.2 (jj - (o + m - 1 - i)) (by omega)
                have he : o + (jj - (o + m - 1 - i)) = i - (m - 1 - jj) := by omega
                rw [he] at hb2
                rw [← hb2]
                exact hne'
            have := hd2c jj (o + m - 1 - i) hjj (by omega) hgood
            omega
          have hcm : cMax (d1 (B.getD (i - (m - 1 - jj)) 0)) (d2 jj) ≤
              o + m - 1 - (i - (m - 1 - jj)) := cMax_le hbc hgs
          omega
        rw [hval]
        exact ih (i - (m - 1 - jj) + cMax (d1 (B.getD (i - (m - 1 - jj)) 0)) (d2 jj))
          (by omega) (by omega) hinv'

/-- The master lemma instantiated with the tables `make_delta1`/`make_delta2`
and the initial cursor `patlen - 1`, i.e. for `bmSearch`. -/
theorem bm_search_master (B P : List Nat) (hm : 1 ≤ P.length)
    (hW : B.length + 2 * P.length ≤ W64) :
    (bmSearch B P = NOT_FOUND → ∀ o, ¬ matchAt B P o) ∧
    (bmSearch B P ≠ NOT_FOUND →
      matchAt B P (bmSearch B P) ∧ bmSearch B P + P.length ≤ B.length ∧
      ∀ o, matchAt B P o → bmSearch B P ≤ o) := by
  have hw := W64_pos
  have hiinit : (P.length + (W64 - 1)) % W64 = P.length - 1 := by
    have ha : P.length + (W64 - 1) = (P.length - 1) + W64 := by omega
    rw [ha, Nat.add_mod_right]
    exact mod_small (by omega)
  unfold bmSearch bm_search
  rw [hiinit]
  exact bm_loop_master B P P.length
    (make_delta1 P P.length) (make_delta2 P P.length) hm rfl hW
    (fun c => make_delta1_range P P.length hm c)
    (fun idx h => make_delta1_le_occ P P.length idx h)
    (fun j hj => (make_delta2_bounds P P.length hm j hj).1)
    (fun j hj => (make_delta2_bounds P P.length hm j hj).2)
    (fun j t hj ht hg => make_delta2_goodShift_le P P.length hm j t hj ht hg)
    (B.length + 1) (P.length - 1) (by omega) (by omega)
    (fun o ho => by have h := ho.1; omega)

/-! ### Claim theorems for the single-shot scanner -/

/-- C1.  Soundness of the scanner: for every buffer `B` and non-empty pattern
`P`, with tables built by `make_delta1` and `make_delta2` from `P`, if
`bm_search` returns an offset other than the not-found sentinel, the bytes of
`B` at that offset equal `P` exactly. -/
theorem bm_search_sound (B P : List Nat) (hm : 1 ≤ P.length)
    (hW : B.length + 2 * P.length ≤ W64) (hfound : bmSearch B P ≠ NOT_FOUND) :
    matchAt B P (bmSearch B P) :=
  ((bm_search_master B P hm hW).2 hfound).1

theorem bm_search_sound_w : matchAt [1, 2, 3] [2] (bmSearch [1, 2, 3] [2]) :=
  bm_search_sound [1, 2, 3] [2] (by decide) (by decide) (by decide)

/-- C2.  Completeness of the scanner: if `bm_search` with the real tables
returns the not-found sentinel, no contiguous substring of `B` equals `P`
(the shift rule never skips past a genuine match). -/
theorem bm_search_complete (B P : List Nat) (hm : 1 ≤ P.length)
    (hW : B.length + 2 * P.length ≤ W64) (hnf : bmSearch B P = NOT_FOUND) :
    ∀ o, ¬ matchAt B P o :=
  (bm_search_master B P hm hW).1 hnf

theorem bm_search_complete_w : ¬ matchAt [1, 2, 3] [5] 0 :=
  bm_search_complete [1, 2, 3] [5] (by decide) (by decide) (by decide) 0

/-- C3.  Leftmost match: if `bm_search` with the real tables returns an
offset, no occurrence of `P` in `B` starts strictly before it. -/
theorem bm_search_leftmost (B P : List Nat) (hm : 1 ≤ P.length)
    (hW : B.length + 2 * P.length ≤ W64) (hfound : bmSearch B P ≠ NOT_FOUND) :
    ∀ o, matchAt B P o → bmSearch B P ≤ o :=
  ((bm_search_master B P hm hW).2 hfound).2.2

theorem bm_search_leftmost_w : bmSearch [2, 1, 2] [2] ≤ 2 :=
  bm_search_leftmost [2, 1, 2] [2] (by decide) (by decide) (by decide) 2 (by decide)

/-- C4.  Bad-character table formula: the entry for byte value `v` is
`|P|` when `v` does not occur in `P[0 .. |P|-2]`, and otherwise
`|P| - 1 - i` for the rightmost occurrence position `i` (later writes
overwrite earlier ones). -/
theorem delta1_formula (P : List Nat) (v : Nat) :
    ((∀ i, i < P.length - 1 → P.getD i 0 ≠ v) → make_delta1 P P.length v = P.length) ∧
    (∀ i, i < P.length - 1 → P.getD i 0 = v →
      (∀ i', i < i' → i' < P.length - 1 → P.getD i' 0 ≠ v) →
      make_delta1 P P.length v = P.length - 1 - i) :=
  ⟨make_delta1_not_occ P P.length v,
    fun i h1 h2 h3 => make_delta1_rightmost P P.length v i h1 h2 h3⟩

theorem delta1_formula_w :
    make_delta1 [9, 7, 9, 8] 4 9 = 4 - 1 - 2 ∧ make_delta1 [9, 7, 9, 8] 4 5 = 4 :=
  ⟨(delta1_formula [9, 7, 9, 8] 9).2 2 (by decide) (by decide)
      (by intro i' h1 h2; simp at h2; omega),
    (delta1_formula [9, 7, 9, 8] 5).1 (by decide)⟩

/-- C5.  Table range invariants: every bad-character entry lies in
`[1, |P|]` and every good-suffix entry lies in `[1, 2|P| - 1]`. -/
theorem tables_in_range (P : List Nat) (hm : 1 ≤ P.length) :
    (∀ c, c < ALPHABET_LEN →
      1 ≤ make_delta1 P P.length c ∧ make_delta1 P P.length c ≤ P.length) ∧
    (∀ j, j < P.length →
      1 ≤ make_delta2 P P.length j ∧ make_delta2 P P.length j ≤ 2 * P.length - 1) := by
  constructor
  · intro c _
    exact make_delta1_range P P.length hm c
  · intro j hj
    have h := make_delta2_bounds P P.length hm j hj
    exact ⟨by omega, h.2⟩

theorem tables_in_range_w :
    1 ≤ make_delta1 [3, 3] 2 3 ∧ make_delta2 [3, 3] 2 0 ≤ 2 * 2 - 1 :=
  ⟨((tables_in_range [3, 3] (by decide)).1 3 (by decide)).1,
    ((tables_in_range [3, 3] (by decide)).2 0 (by decide)).2⟩

/-- C6.  Degenerate inputs resolve to not-found, not an error: a buffer
shorter than the (non-empty) pattern yields the sentinel immediately, and the
scan performs no byte comparison at all. -/
theorem bm_search_short_buffer (B P : List Nat) (hm : 1 ≤ P.length)
    (hPW : P.length < W64) (hshort : B.length < P.length) :
    bmSearch B P = NOT_FOUND ∧ bmReads B P = [] := by
  have hw := W64_pos
  have hiinit : (P.length + (W64 - 1)) % W64 = P.length - 1 := by
    have ha : P.length + (W64 - 1) = (P.length - 1) + W64 := by omega
    rw [ha, Nat.add_mod_right]
    exact mod_small (by omega)
  constructor
  · unfold bmSearch bm_search
    rw [hiinit, bm_loop_succ, if_neg (by omega)]
  · unfold bmReads
    rw [hiinit, bm_loop_reads_succ, if_neg (by omega)]

theorem bm_search_short_buffer_w :
    bmSearch ([] : List Nat) [7] = NOT_FOUND ∧ bmReads ([] : List Nat) [7] = [] :=
  bm_search_short_buffer [] [7] (by decide) (by decide) (by decide)

/-- C9.  Sentinel non-collision: any non-sentinel offset `o` returned by
`bm_search` satisfies `o + |P| ≤ |B|`, hence is strictly below
`NOT_FOUND = 2^64 - 1`, so the sentinel can never collide with a valid
offset. -/
theorem bm_search_sentinel (B P : List Nat) (hm : 1 ≤ P.length)
    (hW : B.length + 2 * P.length ≤ W64) (hfound : bmSearch B P ≠ NOT_FOUND) :
    bmSearch B P + P.length ≤ B.length ∧ bmSearch B P < NOT_FOUND := by
  have h := (bm_search_master B P hm hW).2 hfound
  refine ⟨h.2.1, ?_⟩
  have hw := W64_pos
  have hnf : NOT_FOUND = W64 - 1 := rfl
  omega

theorem bm_search_sentinel_w :
    bmSearch [4, 4] [4] + 1 ≤ 2 ∧ bmSearch [4, 4] [4] < NOT_FOUND := by
  have h := bm_search_sentinel [4, 4] [4] (by decide) (by decide) (by decide)
  exact h

/-! ### Memory-safety of the scan loop -/

theorem bm_inner_reads_bound (B P : List Nat) :
    ∀ n i, n ≤ i + 1 → i < W64 →
      ∀ pr ∈ bm_inner_reads B P i n, pr.1 ≤ i ∧ pr.2 < n := by
  intro n
  induction n with
  | zero =>
    intro i h1 h2 pr hpr
    simp [bm_inner_reads] at hpr
  | succ n ih =>
    intro i h1 h2 pr hpr
    simp only [bm_inner_reads] at hpr
    rcases List.mem_cons.mp hpr with rfl | hpr'
    · exact ⟨le_refl _, by omega⟩
    · split at hpr'
      case isTrue hc =>
        rcases Nat.eq_zero_or_pos i with rfl | hipos
        · have hn : n = 0 := by omega
          subst hn
          simp [bm_inner_reads] at hpr'
        · rw [dec_mod hipos h2] at hpr'
          have h := ih (i - 1) (by omega) (by omega) pr hpr'
          exact ⟨by omega, by omega⟩
      case isFalse => simp at hpr'

theorem bm_loop_reads_bound (B P : List Nat) (m : Nat) (d1 d2 : Nat → Nat)
    (hm : 1 ≤ m) (hW : B.length + 2 * m ≤ W64)
    (hd1a : ∀ c, 1 ≤ d1 c ∧ d1 c ≤ m)
    (hd2a : ∀ j, j < m → m - j ≤ d2 j)
    (hd2b : ∀ j, j < m → d2 j ≤ 2 * m - 1) :
    ∀ fuel i, m - 1 ≤ i →
      ∀ pr ∈ bm_loop_reads B P B.length m d1 d2 fuel i,
        pr.1 < B.length ∧ pr.2 < m := by
  have hw := W64_pos
  intro fuel
  induction fuel with
  | zero =>
    intro i hi pr hpr
    simp [bm_loop_reads] at hpr
  | succ fuel ih =>
    intro i hi pr hpr
    rw [bm_loop_reads_succ] at hpr
    by_cases hguard : i < B.length
    case neg =>
      rw [if_neg hguard] at hpr
      simp at hpr
    case pos =>
      rw [if_pos hguard] at hpr
      have hiW : i < W64 := by omega
      rcases List.mem_append.mp hpr with hpr' | hpr'
      · have h := bm_inner_reads_bound B P m i (by omega) hiW pr hpr'
        exact ⟨by omega, h.2⟩
      · split at hpr'
        case isTrue => simp at hpr'
        case isFalse hnz =>
          have hspec := bm_inner_spec B P m i (by omega) hiW
          rcases hspec with ⟨h0, _, _⟩ | ⟨jj, hjj, heq, _, _⟩
          · exact absurd h0 hnz
          · rw [heq] at hpr'
            simp only at hpr'
            have he1 : jj + 1 - 1 = jj := by omega
            rw [he1] at hpr'
            have hs_lo : m - jj ≤ cMax (d1 (B.getD (i - (m - 1 - jj)) 0)) (d2 jj) := by
              have h1 := hd2a jj hjj
              have h2 := le_cMax_right (d1 (B.getD (i - (m - 1 - jj)) 0)) (d2 jj)
              omega
            have hs_hi : cMax (d1 (B.getD (i - (m - 1 - jj)) 0)) (d2 jj) ≤ 2 * m - 1 := by
              refine cMax_le ?_ ?_
              · have h3 := (hd1a (B.getD (i - (m - 1 - jj)) 0)).2
                omega
              · exact hd2b jj hjj
            have hnowrap :
                (i - (m - 1 - jj) + cMax (d1 (B.getD (i - (m - 1 - jj)) 0)) (d2 jj)) % W64 =
                  i - (m - 1 - jj) + cMax (d1 (B.getD (i - (m - 1 - jj)) 0)) (d2 jj) := by
              apply mod_small
              omega
            rw [hnowrap] at hpr'
            exact ih _ (by omega) pr hpr'

/-- C10.  Implicit in-bounds access and wraparound correctness: every read of
the scan loop is at a buffer index below `|B|` and a pattern index below
`|P|` (the `j >= 0` guard short-circuits before `string[i]`, which is why
`bm_inner_reads` records nothing once `j` is `-1`); and when the match starts
at offset 0 the unsigned cursor ends at `2^64 - 1` after wrapping, yet the
returned `i + 1` is again offset `0`. -/
theorem scan_reads_inbounds (B P : List Nat) (hm : 1 ≤ P.length)
    (hW : B.length + 2 * P.length ≤ W64) :
    (∀ pr ∈ bmReads B P, pr.1 < B.length ∧ pr.2 < P.length) ∧
    (matchAt B P 0 →
      bm_inner B P (P.length - 1) P.length = (W64 - 1, 0) ∧ bmSearch B P = 0) := by
  have hw := W64_pos
  have hiinit : (P.length + (W64 - 1)) % W64 = P.length - 1 := by
    have ha : P.length + (W64 - 1) = (P.length - 1) + W64 := by omega
    rw [ha, Nat.add_mod_right]
    exact mod_small (by omega)
  constructor
  · intro pr hpr
    unfold bmReads at hpr
    rw [hiinit] at hpr
    exact bm_loop_reads_bound B P P.length
      (make_delta1 P P.length) (make_delta2 P P.length) hm hW
      (fun c => make_delta1_range P P.length hm c)
      (fun j hj => (make_delta2_bounds P P.length hm j hj).1)
      (fun j hj => (make_delta2_bounds P P.length hm j hj).2)
      (B.length + 1) (P.length - 1) (by omega) pr hpr
  · intro h0
    have hmatch0 : ∀ k, k < P.length → B.getD k 0 = P.getD k 0 := by
      intro k hk
      have hb := h0.2 k hk
      rwa [Nat.zero_add] at hb
    have hinner : bm_inner B P (P.length - 1) P.length = (W64 - 1, 0) := by
      have hspec := bm_inner_spec B P P.length (P.length - 1) (by omega)
        (by have hb := h0.1; omega)
      rcases hspec with ⟨ha, hb, _⟩ | ⟨jj, hjj, _, hne', _⟩
      · have hv : (P.length - 1 + (W64 - P.length)) % W64 = W64 - 1 := by
          have he : P.length - 1 + (W64 - P.length) = W64 - 1 := by omega
          rw [he]
          exact mod_small (by omega)
        rw [hv] at hb
        exact Prod.ext hb ha
      · exfalso
        apply hne'
        have he : P.length - 1 - (P.length - 1 - jj) = jj := by omega
        rw [he]
        exact hmatch0 jj hjj
    refine ⟨hinner, ?_⟩
    have hne : bmSearch B P ≠ NOT_FOUND := by
      intro habs
      exact (bm_search_master B P hm hW).1 habs 0 h0
    have hle := ((bm_search_master B P hm hW).2 hne).2.2 0 h0
    omega

theorem scan_reads_inbounds_w :
    ((1, 1) : Nat × Nat).1 < 2 ∧ ((1, 1) : Nat × Nat).2 < 2 ∧
    bm_inner [3, 4] [3, 4] 1 2 = (W64 - 1, 0) ∧ bmSearch [3, 4] [3, 4] = 0 := by
  have h := scan_reads_inbounds [3, 4] [3, 4] (by decide) (by decide)
  have h1 := h.1 (1, 1) (by decide)
  have h2 := h.2 (by decide)
  exact ⟨h1.1, h1.2, h2.1, h2.2⟩

/-! ### Driver equivalence with the naive non-overlapping scan -/

theorem driverGo_succ (file pattern : List Nat) (d1 d2 : Nat → Nat) (fuel last : Nat) :
    driverGo file pattern d1 d2 (fuel + 1) last =
      if bm_search (file.drop last) pattern ((file.length + (W64 - last)) % W64)
           pattern.length d1 d2 = NOT_FOUND then []
      else
        ((last + bm_search (file.drop last) pattern ((file.length + (W64 - last)) % W64)
            pattern.length d1 d2) % W64) ::
          driverGo file pattern d1 d2 fuel
            ((last + bm_search (file.drop last) pattern ((file.length + (W64 - last)) % W64)
                pattern.length d1 d2 + pattern.length) % W64) := rfl

theorem getD_drop (B : List Nat) (last k : Nat) :
    (B.drop last).getD k 0 = B.getD (last + k) 0 := by
  simp [List.getD_eq_getElem?_getD, List.getElem?_drop]

theorem matchAt_drop (B P : List Nat) (last o : Nat) (hlast : last ≤ B.length) :
    matchAt (B.drop last) P o ↔ matchAt B P (last + o) := by
  unfold matchAt
  rw [List.length_drop]
  constructor
  · rintro ⟨h1, h2⟩
    refine ⟨by omega, ?_⟩
    intro k hk
    have hb := h2 k hk
    rw [getD_drop] at hb
    have he : last + (o + k) = last + o + k := by omega
    rwa [he] at hb
  · rintro ⟨h1, h2⟩
    refine ⟨by omega, ?_⟩
    intro k hk
    have hb := h2 k hk
    rw [getD_drop]
    have he : last + (o + k) = last + o + k := by omega
    rwa [he]

theorem naiveFirstGo_some (B P : List Nat) :
    ∀ fuel c o, c ≤ o → o + 1 ≤ c + fuel → matchAt B P o →
      (∀ o', c ≤ o' → o' < o → ¬ matchAt B P o') →
      naiveFirstGo B P fuel c = some o := by
  intro fuel
  induction fuel with
  | zero => intro c o h1 h2 h3 h4; omega
  | succ fuel ih =>
    intro c o h1 h2 h3 h4
    have hguard : ¬ B.length < c + P.length := by
      have hb := h3.1
      omega
    rcases Nat.eq_or_lt_of_le h1 with rfl | hlt
    · simp only [naiveFirstGo, if_neg hguard, if_pos h3]
    · have hcm : ¬ matchAt B P c := h4 c (le_refl _) hlt
      simp only [naiveFirstGo, if_neg hguard, if_neg hcm]
      exact ih (c + 1) o (by omega) (by omega) h3 (fun o' ha hb => h4 o' (by omega) hb)

theorem naiveFirstGo_none (B P : List Nat) :
    ∀ fuel c, (∀ o, c ≤ o → ¬ matchAt B P o) →
      naiveFirstGo B P fuel c = none := by
  intro fuel
  induction fuel with
  | zero => intro c _; rfl
  | succ fuel ih =>
    intro c h
    by_cases hguard : B.length < c + P.length
    · simp only [naiveFirstGo, if_pos hguard]
    · simp only [naiveFirstGo, if_neg hguard, if_neg (h c (le_refl _))]
      exact ih (c + 1) (fun o ho => h o (by omega))

theorem naiveFirstGo_some_inv (B P : List Nat) :
    ∀ fuel c o, naiveFirstGo B P fuel c = some o → c ≤ o ∧ matchAt B P o := by
  intro fuel
  induction fuel with
  | zero => intro c o h; exact absurd h (by simp [naiveFirstGo])
  | succ fuel ih =>
    intro c o h
    simp only [naiveFirstGo] at h
    split at h
    · exact absurd h (by simp)
    · split at h
      case isTrue hmt =>
        have ho : c = o := by injection h
        subst ho
        exact ⟨le_refl _, hmt⟩
      case isFalse =>
        have hr := ih (c + 1) o h
        exact ⟨by omega, hr.2⟩

theorem driverGo_eq_naive (B P : List Nat) (hm : 1 ≤ P.length)
    (hW : B.length + 2 * P.length ≤ W64) :
    ∀ fuel last, last ≤ B.length →
      driverGo B P (make_delta1 P P.length) (make_delta2 P P.length) fuel last =
        naiveScanGo B P fuel last := by
  have hw := W64_pos
  intro fuel
  induction fuel with
  | zero => intro last _; rfl
  | succ fuel ih =>
    intro last hlast
    have hlen : (B.length + (W64 - last)) % W64 = (B.drop last).length := by
      rw [List.length_drop]
      have ha : B.length + (W64 - last) = (B.length - last) + W64 := by omega
      rw [ha, Nat.add_mod_right]
      exact mod_small (by omega)
    have hWdrop : (B.drop last).length + 2 * P.length ≤ W64 := by
      rw [List.length_drop]
      omega
    have hmaster := bm_search_master (B.drop last) P hm hWdrop
    have hbm : bm_search (B.drop last) P ((B.length + (W64 - last)) % W64) P.length
        (make_delta1 P P.length) (make_delta2 P P.length) = bmSearch (B.drop last) P := by
      rw [hlen]
      rfl
    rw [driverGo_succ, hbm]
    by_cases hnf : bmSearch (B.drop last) P = NOT_FOUND
    · rw [if_pos hnf]
      have hnone : naiveFirstFrom B P last = none := by
        unfold naiveFirstFrom
        apply naiveFirstGo_none
        intro o ho hmt
        have hmt' : matchAt (B.drop last) P (o - last) := by
          rw [matchAt_drop B P last (o - last) hlast]
          have he : last + (o - last) = o := by omega
          rwa [he]
        exact hmaster.1 hnf (o - last) hmt'
      simp only [naiveScanGo, hnone]
    · rw [if_neg hnf]
      obtain ⟨hsound, hbound, hleft⟩ := hmaster.2 hnf
      rw [List.length_drop] at hbound
      have hmatchB : matchAt B P (last + bmSearch (B.drop last) P) :=
        (matchAt_drop B P last (bmSearch (B.drop last) P) hlast).mp hsound
      have hsome : naiveFirstFrom B P last = some (last + bmSearch (B.drop last) P) := by
        unfold naiveFirstFrom
        apply naiveFirstGo_some
        · omega
        · omega
        · exact hmatchB
        · intro o' h1 h2 hmt
          have hmt' : matchAt (B.drop last) P (o' - last) := by
            rw [matchAt_drop B P last (o' - last) hlast]
            have he : last + (o' - last) = o' := by omega
            rwa [he]
          have hge := hleft (o' - last) hmt'
          omega
      simp only [naiveScanGo, hsome]
      have hb1 : (last + bmSearch (B.drop last) P) % W64 =
          last + bmSearch (B.drop last) P := mod_small (by omega)
      have hb2 : (last + bmSearch (B.drop last) P + P.length) % W64 =
          last + bmSearch (B.drop last) P + P.length := mod_small (by omega)
      rw [hb1, hb2]
      congr 1
      exact ih (last + bmSearch (B.drop last) P + P.length) (by omega)

/-- Shared bridge: the mgrep driver reports exactly the offsets of the naive
greedy non-overlapping scan. -/
theorem driver_eq_naiveScan (B P : List Nat) (hm : 1 ≤ P.length)
    (hW : B.length + 2 * P.length ≤ W64) : driver B P = naiveScan B P := by
  unfold driver naiveScan
  exact driverGo_eq_naive B P hm hW (B.length + 1) 0 (by omega)

theorem naiveScanGo_pairwise (B P : List Nat) :
    ∀ fuel c, (∀ x ∈ naiveScanGo B P fuel c, c ≤ x) ∧
      List.Pairwise (fun x y => x + P.length ≤ y) (naiveScanGo B P fuel c) := by
  intro fuel
  induction fuel with
  | zero =>
    intro c
    constructor
    · intro x hx
      exact absurd hx (by simp [naiveScanGo])
    · simp [naiveScanGo]
  | succ fuel ih =>
    intro c
    rcases hF : naiveFirstFrom B P c with _ | o
    · constructor
      · intro x hx
        simp only [naiveScanGo, hF] at hx
        exact absurd hx (by simp)
      · simp [naiveScanGo, hF]
    · have hco : c ≤ o := (naiveFirstGo_some_inv B P _ c o hF).1
      constructor
      · intro x hx
        simp only [naiveScanGo, hF] at hx
        rcases List.mem_cons.mp hx with rfl | hx'
        · exact hco
        · have hr := (ih (o + P.length)).1 x hx'
          omega
      · simp only [naiveScanGo, hF]
        rw [List.pairwise_cons]
        constructor
        · intro b hb
          have hr := (ih (o + P.length)).1 b hb
          omega
        · exact (ih (o + P.length)).2

/-- C7.  Driver equivalence: the repeated-scan driver of mgrep reports exactly
the same offset sequence as the naive greedy left-to-right non-overlapping
scan, and every two reported matches are non-overlapping. -/
theorem driver_matches_naive (B P : List Nat) (hm : 1 ≤ P.length)
    (hW : B.length + 2 * P.length ≤ W64) :
    driver B P = naiveScan B P ∧
    List.Pairwise (fun x y => x + P.length ≤ y) (driver B P) := by
  refine ⟨driver_eq_naiveScan B P hm hW, ?_⟩
  rw [driver_eq_naiveScan B P hm hW]
  unfold naiveScan
  exact (naiveScanGo_pairwise B P (B.length + 1) 0).2

theorem driver_matches_naive_w :
    driver [0, 1, 2, 1, 2] [1, 2] = naiveScan [0, 1, 2, 1, 2] [1, 2] ∧
    List.Pairwise (fun x y => x + 2 ≤ y) (driver [0, 1, 2, 1, 2] [1, 2]) := by
  have h := driver_matches_naive [0, 1, 2, 1, 2] [1, 2] (by decide) (by decide)
  exact h

/-! ### All-identical-byte scan count -/

theorem getD_replicate (b N i : Nat) :
    (List.replicate N b).getD i 0 = if i < N then b else 0 := by
  split
  case isTrue h =>
    rw [List.getD_eq_getElem?_getD, List.getElem?_replicate, if_pos h]
    rfl
  case isFalse h =>
    rw [List.getD_eq_getElem?_getD, List.getElem?_replicate, if_neg h]
    rfl

theorem matchAt_replicate (b N n c : Nat) :
    matchAt (List.replicate N b) (List.replicate n b) c ↔ c + n ≤ N := by
  unfold matchAt
  rw [List.length_replicate, List.length_replicate]
  constructor
  · intro h
    exact h.1
  · intro h
    refine ⟨h, ?_⟩
    intro k hk
    rw [getD_replicate, getD_replicate, if_pos (by omega), if_pos hk]

theorem naiveScanGo_replicate (b N n : Nat) (hn : 1 ≤ n) :
    ∀ fuel c, N + 1 ≤ fuel + c →
      naiveScanGo (List.replicate N b) (List.replicate n b) fuel c =
        (List.range ((N - c) / n)).map (fun t => c + t * n) := by
  intro fuel
  induction fuel with
  | zero =>
    intro c h
    have hz : N - c = 0 := by omega
    rw [hz, Nat.zero_div]
    rfl
  | succ fuel ih =>
    intro c h
    by_cases hcn : c + n ≤ N
    · have hsome : naiveFirstFrom (List.replicate N b) (List.replicate n b) c = some c := by
        unfold naiveFirstFrom
        apply naiveFirstGo_some
        · exact le_refl c
        · rw [List.length_replicate]
          omega
        · exact (matchAt_replicate b N n c).mpr hcn
        · intro o' h1 h2 _
          omega
      simp only [naiveScanGo, hsome]
      rw [List.length_replicate]
      rw [ih (c + n) (by omega)]
      have hdiv : (N - c) / n = (N - (c + n)) / n + 1 := by
        have ha : N - c = (N - (c + n)) + n := by omega
        rw [ha, Nat.add_div_right _ (by omega)]
      rw [hdiv, List.range_succ_eq_map, List.map_cons, List.map_map]
      congr 1
      · omega
      · apply List.map_congr_left
        intro t _
        simp only [Function.comp_apply]
        rw [Nat.succ_eq_add_one]
        ring
    · have hnone : naiveFirstFrom (List.replicate N b) (List.replicate n b) c = none := by
        unfold naiveFirstFrom
        apply naiveFirstGo_none
        intro o ho hmt
        have hb := (matchAt_replicate b N n o).mp hmt
        omega
      simp only [naiveScanGo, hnone]
      have hdiv : (N - c) / n = 0 := Nat.div_eq_of_lt (by omega)
      rw [hdiv]
      rfl

/-- C8.  All-identical-byte count: the driver with a pattern of `n` copies of
byte `b` over a buffer of `n + k` copies of `b` reports exactly
`(n + k) / n` matches, at offsets `0, n, 2n, ...` — non-overlapping only. -/
theorem driver_replicate (b n k : Nat) (hn : 1 ≤ n)
    (hW : (n + k) + 2 * n ≤ W64) :
    driver (List.replicate (n + k) b) (List.replicate n b) =
      (List.range ((n + k) / n)).map (fun t => t * n) := by
  have h1 : driver (List.replicate (n + k) b) (List.replicate n b) =
      naiveScan (List.replicate (n + k) b) (List.replicate n b) := by
    apply driver_eq_naiveScan
    · rw [List.length_replicate]
      omega
    · rw [List.length_replicate, List.length_replicate]
      omega
  rw [h1]
  unfold naiveScan
  rw [List.length_replicate]
  rw [naiveScanGo_replicate b (n + k) n hn (n + k + 1) 0 (by omega)]
  rw [Nat.sub_zero]
  apply List.map_congr_left
  intro t _
  omega

theorem driver_replicate_w :
    driver (List.replicate 4 65) (List.replicate 2 65) =
      (List.range 2).map (fun t => t * 2) := by
  have h := driver_replicate 65 2 2 (by decide) (by decide)
  exact h

end Mgrep
